import Mathlib

/-!
Verification of the juggling simulator core (juggling_sim.py): the pattern
interpreter and the per-ball scheduling / projectile-physics state machine.
The Python floats are embedded as exact rationals; a Python runtime error
(division by zero, arithmetic on a missing attribute) is embedded as the
value `none` of an `Option`-returning step function.
-/

namespace JugglingSim

/-- Time per beat (seconds); the Python global `T_beat = 0.5`. -/
def T_beat : ℚ := 1/2

/-- Gravitational acceleration; the Python global `g = 9.8`. -/
def g : ℚ := 49/5

/-- Delay after the scheduled throw time before releasing the ball;
the Python global `throw_delay = 0.25`. -/
def throw_delay : ℚ := 1/4

/-- Hand identity, the keys of the `hand_positions` table. -/
inductive Hand
  | R
  | L
  deriving DecidableEq, Repr

/-- The opposite hand, used for odd throw values. -/
def Hand.opp : Hand → Hand
  | .R => .L
  | .L => .R

/-- Fixed hand positions: right hand at (1,0), left hand at (-1,0). -/
def hand_positions : Hand → ℚ × ℚ
  | .R => (1, 0)
  | .L => (-1, 0)

/-- Ball state: the Python strings "in_hand" / "in_air". -/
inductive BState
  | in_hand
  | in_air
  deriving DecidableEq, Repr

/-- The mutable per-ball record.  Attributes that Python initialises to
`None` and only sets during a throw are embedded as `Option` fields. -/
structure Ball where
  ball_id : ℕ
  next_throw_time : ℚ
  hand : Hand
  state : BState
  pos : ℚ × ℚ
  start_time : Option ℚ
  flight_time : Option ℚ
  catch_time : Option ℚ
  start_pos : Option (ℚ × ℚ)
  vx : Option ℚ
  vy : Option ℚ
  dest_hand : Option Hand
  deriving DecidableEq, Repr

/-- Constructor `Ball.__init__`: a fresh ball held in `hand`, resting at that hand,
with every flight attribute unset. -/
def Ball.init (ball_id : ℕ) (next_throw_time : ℚ) (hand : Hand) : Ball where
  ball_id := ball_id
  next_throw_time := next_throw_time
  hand := hand
  state := .in_hand
  pos := hand_positions hand
  start_time := none
  flight_time := none
  catch_time := none
  start_pos := none
  vx := none
  vy := none
  dest_hand := none

/-- Python `round` on an exact rational: nearest integer, ties to even
(banker's rounding), as used in `int(round(...))` on a nonnegative value. -/
def pyRound (q : ℚ) : ℤ :=
  if q - ⌊q⌋ < 1/2 then ⌊q⌋
  else if 1/2 < q - ⌊q⌋ then ⌊q⌋ + 1
  else if ⌊q⌋ % 2 = 0 then ⌊q⌋ else ⌊q⌋ + 1

/-- Method `Ball.throw`: initiate the throw of the ball at `current_time`.
The beat is determined from the scheduled throw time (not the delayed
release); the throw value indexes the siteswap modulo the period; the
flight time is `throw_value * T_beat`.  Returns `none` where Python
raises: `beat % period` with a zero period, an out-of-range siteswap
index, or the division of `(dest_x - source_x)` by a zero flight time. -/
def Ball.throw (b : Ball) (current_time : ℚ) (siteswap : List ℕ)
    (period : ℕ) : Option Ball :=
  if period = 0 then none
  else
    let beat : ℤ := pyRound (b.next_throw_time / T_beat)
    let idx : ℕ := (beat % (period : ℤ)).toNat
    if hidx : idx < siteswap.length then
      let throw_value : ℕ := siteswap.get ⟨idx, hidx⟩
      let flight_time : ℚ := (throw_value : ℚ) * T_beat
      if flight_time = 0 then none
      else
        let source_pos := hand_positions b.hand
        let dest_hand : Hand :=
          if throw_value % 2 = 1 then b.hand.opp else b.hand
        let dest_pos := hand_positions dest_hand
        some { b with
          flight_time := some flight_time
          catch_time := some (current_time + flight_time)
          dest_hand := some dest_hand
          start_time := some current_time
          start_pos := some source_pos
          vx := some ((dest_pos.1 - source_pos.1) / flight_time)
          vy := some (1/2 * g * flight_time)
          state := .in_air }
    else none

/-- Method `Ball.update`: advance the ball to `current_time`.  In the air, follow
the parabola while `t < flight_time`, otherwise catch: back in hand at the
destination hand position, with the next scheduled throw time set to the
catch time.  In hand, throw once `current_time >= next_throw_time +
throw_delay`, otherwise rest at the hand position.  Returns `none` where
Python raises (arithmetic on an unset `None` attribute, or inside a
failing `throw`). -/
def Ball.update (b : Ball) (current_time : ℚ) (siteswap : List ℕ)
    (period : ℕ) : Option Ball :=
  match b.state with
  | .in_air =>
    match b.start_time, b.flight_time with
    | some st, some ft =>
      let t := current_time - st
      if t < ft then
        match b.start_pos, b.vx, b.vy with
        | some sp, some vx, some vy =>
          some { b with pos := (sp.1 + vx * t, sp.2 + vy * t - 1/2 * g * t ^ 2) }
        | _, _, _ => none
      else
        match b.dest_hand, b.catch_time with
        | some dh, some ct =>
          some { b with
            state := .in_hand
            hand := dh
            pos := hand_positions dh
            next_throw_time := ct }
        | _, _ => none
    | _, _ => none
  | .in_hand =>
    if b.next_throw_time + throw_delay ≤ current_time then
      b.throw current_time siteswap period
    else
      some { b with pos := hand_positions b.hand }

/-- The digit extraction of the main program:
`[int(ch) for ch in siteswap_input if ch.isdigit()]`. -/
def parseSiteswap (input : List Char) : List ℕ :=
  (input.filter Char.isDigit).map (fun c => c.toNat - ('0').toNat)

/-- Ball count `num_balls = int(sum(siteswap) / period)`: truncating division of the
sum of the throw values by the period; `none` embeds the division by a
zero period (the Python `ZeroDivisionError` on an empty pattern). -/
def num_balls (siteswap : List ℕ) : Option ℕ :=
  if siteswap.length = 0 then none else some (siteswap.sum / siteswap.length)

/-- The initialization error taxonomy of the design: the failure raised
when the parsed pattern has zero digits. -/
inductive InitError
  | EmptyPatternError
  deriving DecidableEq, Repr

/-- The main-program initialization: parse the digits, derive the ball
count (failing fast on an empty pattern, before any ball is created), and
create `num_balls` balls with staggered initial throw times `i * T_beat`
and alternating starting hands. -/
def initBalls (input : List Char) : Except InitError (List ℕ × ℕ × List Ball) :=
  let siteswap := parseSiteswap input
  let period := siteswap.length
  match num_balls siteswap with
  | none => .error .EmptyPatternError
  | some n =>
    .ok (siteswap, period,
      (List.range n).map (fun i =>
        Ball.init i ((i : ℚ) * T_beat) (if i % 2 = 0 then .R else .L)))

/-! ### Derived descriptions of a throw, used to state the claims -/

/-- The throw value a throw started from ball `b` looks up: the siteswap
entry at the beat of the scheduled throw time, modulo the period
(out-of-range lookup described by the default 0). -/
def throwValueOf (b : Ball) (siteswap : List ℕ) (period : ℕ) : ℕ :=
  siteswap.getD ((pyRound (b.next_throw_time / T_beat) % (period : ℤ)).toNat) 0

/-- The destination hand of a throw from ball `b`: the opposite hand for
an odd throw value, the same hand for an even one. -/
def destHandOf (b : Ball) (siteswap : List ℕ) (period : ℕ) : Hand :=
  if throwValueOf b siteswap period % 2 = 1 then b.hand.opp else b.hand

/-- The ball produced by a successful `Ball.throw` at `current_time`. -/
def thrownBall (b : Ball) (current_time : ℚ) (siteswap : List ℕ)
    (period : ℕ) : Ball :=
  let ft : ℚ := (throwValueOf b siteswap period : ℚ) * T_beat
  let dh := destHandOf b siteswap period
  { b with
    flight_time := some ft
    catch_time := some (current_time + ft)
    dest_hand := some dh
    start_time := some current_time
    start_pos := some (hand_positions b.hand)
    vx := some (((hand_positions dh).1 - (hand_positions b.hand).1) / ft)
    vy := some (1/2 * g * ft)
    state := .in_air }

theorem throwValueOf_of_ge (b : Ball) (ss : List ℕ) (p : ℕ)
    (h : ¬ (pyRound (b.next_throw_time / T_beat) % (p : ℤ)).toNat < ss.length) :
    throwValueOf b ss p = 0 := by
  rw [throwValueOf, List.getD_eq_getElem?_getD, List.getElem?_eq_none (by omega)]
  rfl

theorem throwValueOf_of_lt (b : Ball) (ss : List ℕ) (p : ℕ)
    (h : (pyRound (b.next_throw_time / T_beat) % (p : ℤ)).toNat < ss.length) :
    throwValueOf b ss p = ss.get ⟨_, h⟩ := by
  rw [throwValueOf, List.getD_eq_getElem?_getD, List.getElem?_eq_getElem h]
  rfl

/-- A successful throw is exactly described by `thrownBall`: it needs a
nonzero period and a nonzero throw value (else Python raises), and the
result records the flight parameters of `thrownBall`. -/
theorem throw_eq_some_iff (b b' : Ball) (t : ℚ) (ss : List ℕ) (p : ℕ) :
    b.throw t ss p = some b' ↔
      p ≠ 0 ∧ throwValueOf b ss p ≠ 0 ∧ b' = thrownBall b t ss p := by
  rw [Ball.throw]
  by_cases hp : p = 0
  · simp [hp]
  · rw [if_neg hp]
    by_cases hidx : (pyRound (b.next_throw_time / T_beat) % (p : ℤ)).toNat < ss.length
    · rw [dif_pos hidx]
      have hget := throwValueOf_of_lt b ss p hidx
      by_cases h0 : ss.get ⟨_, hidx⟩ = 0
      · rw [if_pos (by rw [h0]; push_cast; ring)]
        rw [List.get_eq_getElem] at h0
        simp [hp, hget, h0, List.get_eq_getElem]
      · rw [if_neg (by
          intro hc
          apply h0
          have hT : (T_beat : ℚ) ≠ 0 := by norm_num [T_beat]
          have := mul_eq_zero.mp hc
          rcases this with h | h
          · exact_mod_cast h
          · exact absurd h hT)]
        constructor
        · intro hsome
          refine ⟨hp, by rw [hget]; exact_mod_cast h0, ?_⟩
          cases hsome
          simp [thrownBall, destHandOf, hget]
        · rintro ⟨-, -, rfl⟩
          simp [thrownBall, destHandOf, hget]
    · rw [dif_neg hidx]
      have := throwValueOf_of_ge b ss p hidx
      simp [hp, this]

theorem pyRound_zero : pyRound 0 = 0 := by
  norm_num [pyRound]

theorem pyRound_one : pyRound 1 = 1 := by
  norm_num [pyRound]

/-- Rounding lands within a half of its argument: `pyRound` lands within a half beat of its argument. -/
theorem pyRound_dist (q : ℚ) : |q - (pyRound q : ℚ)| ≤ 1/2 := by
  have h0 : ((⌊q⌋ : ℚ)) ≤ q := Int.floor_le q
  have h1 : q < ⌊q⌋ + 1 := Int.lt_floor_add_one q
  rw [pyRound]
  split_ifs with hlt hgt hev
  · rw [abs_le]
    constructor <;> linarith
  · push_cast
    rw [abs_le]
    constructor <;> linarith
  · rw [abs_le]
    constructor <;> linarith
  · push_cast
    rw [abs_le]
    constructor <;> linarith

/-- Rounding is nearest: `pyRound` is a nearest integer: no integer is strictly closer. -/
theorem pyRound_nearest (q : ℚ) (n : ℤ) :
    |q - (pyRound q : ℚ)| ≤ |q - (n : ℚ)| := by
  rcases eq_or_ne n (pyRound q) with rfl | hne
  · exact le_refl _
  · have hz : pyRound q - n ≠ 0 := sub_ne_zero.mpr (Ne.symm hne)
    have h1 : (1 : ℚ) ≤ |(pyRound q : ℚ) - (n : ℚ)| := by
      have := Int.one_le_abs hz
      calc (1 : ℚ) = ((1 : ℤ) : ℚ) := by norm_num
        _ ≤ ((|pyRound q - n| : ℤ) : ℚ) := by exact_mod_cast this
        _ = |(pyRound q : ℚ) - (n : ℚ)| := by push_cast; rfl
    have h2 := pyRound_dist q
    have h3 : |(pyRound q : ℚ) - (n : ℚ)| ≤ |(pyRound q : ℚ) - q| + |q - (n : ℚ)| :=
      abs_sub_le _ q _
    rw [abs_sub_comm ((pyRound q : ℚ)) q] at h3
    linarith

/-! ### The claims -/

/-- C7: `num_balls` is the truncating integer division of the sum of the
throw values by the period; a non-empty pattern never makes it fail (the
count is silently truncated), and when the period divides the sum the
round trip `sum = period * num_balls` holds exactly. -/
theorem num_balls_trunc_div (ss : List ℕ) (h : ss ≠ []) :
    num_balls ss = some (ss.sum / ss.length)
    ∧ (ss.length ∣ ss.sum → ss.sum = ss.length * (ss.sum / ss.length)) := by
  have hlen : ss.length ≠ 0 := fun hl => h (List.length_eq_zero.mp hl)
  exact ⟨by rw [num_balls, if_neg hlen], fun hdvd => (Nat.mul_div_cancel' hdvd).symm⟩

theorem num_balls_trunc_div_w :
    num_balls [5, 1] = some (([5, 1] : List ℕ).sum / ([5, 1] : List ℕ).length)
    ∧ (([5, 1] : List ℕ).length ∣ ([5, 1] : List ℕ).sum →
        ([5, 1] : List ℕ).sum
          = ([5, 1] : List ℕ).length * (([5, 1] : List ℕ).sum / ([5, 1] : List ℕ).length)) :=
  num_balls_trunc_div [5, 1] (by decide)

/-- C2: when the parsed pattern has zero digits, initialization fails fast
with `EmptyPatternError`; the failure is surfaced before any ball is
created, so no ball is ever constructed from an empty pattern. -/
theorem initBalls_empty_pattern (input : List Char)
    (h : parseSiteswap input = []) :
    initBalls input = .error .EmptyPatternError
    ∧ ∀ out, initBalls input ≠ .ok out := by
  have : initBalls input = .error .EmptyPatternError := by
    simp [initBalls, h, num_balls]
  exact ⟨this, fun out hok => by rw [this] at hok; exact Except.noConfusion hok⟩

theorem initBalls_empty_pattern_w :
    initBalls ['a', 'b'] = .error .EmptyPatternError
    ∧ ∀ out, initBalls ['a', 'b'] ≠ .ok out :=
  initBalls_empty_pattern ['a', 'b'] (by decide)

/-- C4: a successful throw records `flight_time = throw_value * T_beat`
where the throw value is the siteswap entry at index `beat mod period`,
the beat being `pyRound` of `next_throw_time / T_beat` — a nearest
integer, not a truncation — so the flight duration is an integer multiple
of the beat and depends only on the scheduled throw time, not on the
delayed release time. -/
theorem throw_beat_flight (b b' : Ball) (t : ℚ) (ss : List ℕ) (p : ℕ)
    (h : b.throw t ss p = some b') :
    b'.flight_time = some ((throwValueOf b ss p : ℚ) * T_beat)
    ∧ throwValueOf b ss p
        = ss.getD ((pyRound (b.next_throw_time / T_beat) % (p : ℤ)).toNat) 0
    ∧ (∀ n : ℤ,
        |b.next_throw_time / T_beat - (pyRound (b.next_throw_time / T_beat) : ℚ)|
          ≤ |b.next_throw_time / T_beat - (n : ℚ)|)
    ∧ (∀ t2 b2, b.throw t2 ss p = some b2 → b2.flight_time = b'.flight_time) := by
  obtain ⟨hp, htv, rfl⟩ := (throw_eq_some_iff b b' t ss p).mp h
  refine ⟨by simp [thrownBall], rfl, fun n => pyRound_nearest _ n, ?_⟩
  intro t2 b2 h2
  obtain ⟨-, -, rfl⟩ := (throw_eq_some_iff b b2 t2 ss p).mp h2
  simp [thrownBall]

theorem throw_beat_flight_w :
    (thrownBall (Ball.init 0 0 .R) 1 [3, 3, 3] 3).flight_time
      = some ((throwValueOf (Ball.init 0 0 .R) [3, 3, 3] 3 : ℚ) * T_beat) :=
  (throw_beat_flight (Ball.init 0 0 .R) (thrownBall (Ball.init 0 0 .R) 1 [3, 3, 3] 3)
    1 [3, 3, 3] 3 ((throw_eq_some_iff _ _ _ _ _).mpr
      ⟨by norm_num, by norm_num [throwValueOf, Ball.init, T_beat, pyRound_zero], rfl⟩)).1

/-- C3: a held ball leaves the Held state on an update exactly when
`current_time >= scheduled_throw_time + throw_delay`; this is the only
transition out of Held, and before the release time the ball keeps its
hand, state and scheduled throw time and rests at the fixed position of
its current hand. -/
theorem held_update (b : Ball) (t : ℚ) (ss : List ℕ) (p : ℕ)
    (hb : b.state = .in_hand) :
    (∀ b', b.update t ss p = some b' →
      (b'.state = .in_air ↔ b.next_throw_time + throw_delay ≤ t))
    ∧ (t < b.next_throw_time + throw_delay →
        b.update t ss p = some { b with pos := hand_positions b.hand }) := by
  constructor
  · intro b' h
    rw [Ball.update, hb] at h
    by_cases hc : b.next_throw_time + throw_delay ≤ t
    · rw [if_pos hc] at h
      obtain ⟨-, -, rfl⟩ := (throw_eq_some_iff b b' t ss p).mp h
      simp [thrownBall, hc]
    · rw [if_neg hc] at h
      injection h with h
      subst h
      constructor
      · intro hair
        exact absurd hair (by simp [hb])
      · intro hle
        exact absurd hle hc
  · intro hlt
    rw [Ball.update, hb, if_neg (not_le.mpr hlt)]

theorem held_update_w :
    (∀ b', (Ball.init 0 0 .R).update 1 [3, 3, 3] 3 = some b' →
      (b'.state = .in_air ↔ (Ball.init 0 0 .R).next_throw_time + throw_delay ≤ 1))
    ∧ (1 < (Ball.init 0 0 .R).next_throw_time + throw_delay →
        (Ball.init 0 0 .R).update 1 [3, 3, 3] 3
          = some { Ball.init 0 0 .R with pos := hand_positions (Ball.init 0 0 .R).hand }) :=
  held_update (Ball.init 0 0 .R) 1 [3, 3, 3] 3 rfl

/-- C5: the destination hand of a throw is the opposite hand exactly when
the throw value is odd and the current hand when it is even; the throw
itself leaves the `hand` field unchanged, and for an even throw value the
hand is still unchanged after every further update of the thrown ball —
in particular across the catch. -/
theorem throw_dest_parity (b b' : Ball) (t : ℚ) (ss : List ℕ) (p : ℕ)
    (h : b.throw t ss p = some b') :
    b'.dest_hand
      = some (if throwValueOf b ss p % 2 = 1 then b.hand.opp else b.hand)
    ∧ b'.hand = b.hand
    ∧ (throwValueOf b ss p % 2 = 0 →
        ∀ t' b'', b'.update t' ss p = some b'' → b''.hand = b.hand) := by
  obtain ⟨-, -, rfl⟩ := (throw_eq_some_iff b b' t ss p).mp h
  refine ⟨by simp [thrownBall, destHandOf], by simp [thrownBall], ?_⟩
  intro hev t' b'' h2
  rw [Ball.update] at h2
  simp only [thrownBall] at h2
  split at h2
  · injection h2 with h2
    subst h2
    simp
  · injection h2 with h2
    subst h2
    simp [destHandOf, Nat.mod_two_ne_one.mpr hev]

theorem throw_dest_parity_w :
    (thrownBall (Ball.init 1 (1/2) .L) 1 [4, 4, 4] 3).dest_hand
      = some (if throwValueOf (Ball.init 1 (1/2) .L) [4, 4, 4] 3 % 2 = 1
          then (Ball.init 1 (1/2) .L).hand.opp else (Ball.init 1 (1/2) .L).hand)
    ∧ (thrownBall (Ball.init 1 (1/2) .L) 1 [4, 4, 4] 3).hand
        = (Ball.init 1 (1/2) .L).hand
    ∧ (throwValueOf (Ball.init 1 (1/2) .L) [4, 4, 4] 3 % 2 = 0 →
        ∀ t' b'', (thrownBall (Ball.init 1 (1/2) .L) 1 [4, 4, 4] 3).update t' [4, 4, 4] 3
            = some b'' →
          b''.hand = (Ball.init 1 (1/2) .L).hand) :=
  throw_dest_parity (Ball.init 1 (1/2) .L)
    (thrownBall (Ball.init 1 (1/2) .L) 1 [4, 4, 4] 3) 1 [4, 4, 4] 3
    ((throw_eq_some_iff _ _ _ _ _).mpr
      ⟨by norm_num, by norm_num [throwValueOf, Ball.init, T_beat, pyRound_one], rfl⟩)

/-- C6: when an update reaches a ball thrown at time `t` after its flight
time has elapsed, the ball is caught: it is back in hand, its hand is the
recorded destination hand, its position is snapped to that hand's fixed
position, and its next scheduled throw time is the exact catch time
`t + flight_time`, not the time of the update call. -/
theorem catch_update (b b' b'' : Ball) (t t' : ℚ) (ss : List ℕ) (p : ℕ)
    (h : b.throw t ss p = some b') (ft : ℚ) (hft : b'.flight_time = some ft)
    (hel : ft ≤ t' - t) (h2 : b'.update t' ss p = some b'') :
    b''.state = .in_hand
    ∧ some b''.hand = b'.dest_hand
    ∧ b''.pos = hand_positions b''.hand
    ∧ b''.next_throw_time = t + ft := by
  obtain ⟨-, -, rfl⟩ := (throw_eq_some_iff b b' t ss p).mp h
  simp only [thrownBall, Option.some_inj] at hft
  rw [Ball.update] at h2
  simp only [thrownBall] at h2
  rw [if_neg (by rw [← hft] at hel; exact not_lt.mpr hel)] at h2
  injection h2 with h2
  subst h2
  simp [hft, thrownBall]

theorem catch_update_w :
    ({ thrownBall (Ball.init 0 0 .R) 1 [3, 3, 3] 3 with
        state := BState.in_hand, hand := Hand.L, pos := hand_positions Hand.L,
        next_throw_time := 1 + 3/2 } : Ball).state = BState.in_hand
    ∧ some ({ thrownBall (Ball.init 0 0 .R) 1 [3, 3, 3] 3 with
        state := BState.in_hand, hand := Hand.L, pos := hand_positions Hand.L,
        next_throw_time := 1 + 3/2 } : Ball).hand
        = (thrownBall (Ball.init 0 0 .R) 1 [3, 3, 3] 3).dest_hand
    ∧ ({ thrownBall (Ball.init 0 0 .R) 1 [3, 3, 3] 3 with
        state := BState.in_hand, hand := Hand.L, pos := hand_positions Hand.L,
        next_throw_time := 1 + 3/2 } : Ball).pos
        = hand_positions ({ thrownBall (Ball.init 0 0 .R) 1 [3, 3, 3] 3 with
            state := BState.in_hand, hand := Hand.L, pos := hand_positions Hand.L,
            next_throw_time := 1 + 3/2 } : Ball).hand
    ∧ ({ thrownBall (Ball.init 0 0 .R) 1 [3, 3, 3] 3 with
        state := BState.in_hand, hand := Hand.L, pos := hand_positions Hand.L,
        next_throw_time := 1 + 3/2 } : Ball).next_throw_time = 1 + 3/2 :=
  catch_update (Ball.init 0 0 .R) (thrownBall (Ball.init 0 0 .R) 1 [3, 3, 3] 3)
    ({ thrownBall (Ball.init 0 0 .R) 1 [3, 3, 3] 3 with
        state := BState.in_hand, hand := Hand.L, pos := hand_positions Hand.L,
        next_throw_time := 1 + 3/2 } : Ball)
    1 3 [3, 3, 3] 3
    ((throw_eq_some_iff _ _ _ _ _).mpr
      ⟨by norm_num, by norm_num [throwValueOf, Ball.init, T_beat, pyRound_zero], rfl⟩)
    (3/2)
    (by norm_num [thrownBall, throwValueOf, Ball.init, T_beat, pyRound_zero])
    (by norm_num)
    (by
      rw [Ball.update]
      norm_num [thrownBall, throwValueOf, destHandOf, Ball.init, T_beat, pyRound_zero]
      exact ⟨rfl, rfl⟩)

/-- C8: the launch parameters of every throw satisfy both boundary
conditions in exact arithmetic: the flight time is positive, the launch
height is the hands' baseline `y = 0`, the vertical launch velocity is
`0.5 * g * flight_time`, the horizontal position reaches the destination
hand exactly at `elapsed = flight_time`, and the vertical position
returns to `y = 0` there. -/
theorem launch_boundary (b b' : Ball) (t : ℚ) (ss : List ℕ) (p : ℕ)
    (h : b.throw t ss p = some b') (ft vx vy : ℚ) (sp : ℚ × ℚ) (dh : Hand)
    (hft : b'.flight_time = some ft) (hsp : b'.start_pos = some sp)
    (hvx : b'.vx = some vx) (hvy : b'.vy = some vy)
    (hdh : b'.dest_hand = some dh) :
    0 < ft
    ∧ sp.2 = 0
    ∧ vy = 1/2 * g * ft
    ∧ sp.1 + vx * ft = (hand_positions dh).1
    ∧ sp.2 + vy * ft - 1/2 * g * ft ^ 2 = 0 := by
  obtain ⟨-, htv, rfl⟩ := (throw_eq_some_iff b b' t ss p).mp h
  simp only [thrownBall, Option.some_inj] at hft hsp hvx hvy hdh
  subst hft hsp hvx hvy hdh
  have htbeat : (0 : ℚ) < T_beat := by norm_num [T_beat]
  have htvpos : (0 : ℚ) < (throwValueOf b ss p : ℚ) := by
    exact_mod_cast Nat.pos_of_ne_zero htv
  have hftpos : (0 : ℚ) < (throwValueOf b ss p : ℚ) * T_beat := mul_pos htvpos htbeat
  refine ⟨hftpos, ?_, rfl, ?_, ?_⟩
  · cases b.hand <;> simp [hand_positions]
  · rw [div_mul_cancel₀ _ (ne_of_gt hftpos)]
    ring
  · cases b.hand <;> simp [hand_positions] <;> ring

theorem launch_boundary_w :
    0 < (throwValueOf (Ball.init 0 0 .R) [3, 3, 3] 3 : ℚ) * T_beat
    ∧ (hand_positions (Ball.init 0 0 .R).hand).2 = 0
    ∧ 1/2 * g * ((throwValueOf (Ball.init 0 0 .R) [3, 3, 3] 3 : ℚ) * T_beat)
        = 1/2 * g * ((throwValueOf (Ball.init 0 0 .R) [3, 3, 3] 3 : ℚ) * T_beat)
    ∧ (hand_positions (Ball.init 0 0 .R).hand).1
        + ((hand_positions (destHandOf (Ball.init 0 0 .R) [3, 3, 3] 3)).1
            - (hand_positions (Ball.init 0 0 .R).hand).1)
          / ((throwValueOf (Ball.init 0 0 .R) [3, 3, 3] 3 : ℚ) * T_beat)
          * ((throwValueOf (Ball.init 0 0 .R) [3, 3, 3] 3 : ℚ) * T_beat)
        = (hand_positions (destHandOf (Ball.init 0 0 .R) [3, 3, 3] 3)).1
    ∧ (hand_positions (Ball.init 0 0 .R).hand).2
        + 1/2 * g * ((throwValueOf (Ball.init 0 0 .R) [3, 3, 3] 3 : ℚ) * T_beat)
          * ((throwValueOf (Ball.init 0 0 .R) [3, 3, 3] 3 : ℚ) * T_beat)
        - 1/2 * g * ((throwValueOf (Ball.init 0 0 .R) [3, 3, 3] 3 : ℚ) * T_beat) ^ 2
        = 0 :=
  launch_boundary (Ball.init 0 0 .R) (thrownBall (Ball.init 0 0 .R) 1 [3, 3, 3] 3)
    1 [3, 3, 3] 3
    ((throw_eq_some_iff _ _ _ _ _).mpr
      ⟨by norm_num, by norm_num [throwValueOf, Ball.init, T_beat, pyRound_zero], rfl⟩)
    _ _ _ _ _ rfl rfl rfl rfl rfl

/-- Invariant carried by every reachable ball: any recorded catch time
lies at or after the currently scheduled throw time. -/
def BallInv (b : Ball) : Prop :=
  ∀ c, b.catch_time = some c → b.next_throw_time ≤ c

theorem ballInv_init (i : ℕ) (t0 : ℚ) (h0 : Hand) : BallInv (Ball.init i t0 h0) := by
  intro c hc
  simp [Ball.init] at hc

/-- One update never decreases the scheduled throw time and preserves the
invariant, whatever the time of the call. -/
theorem update_next_throw_mono (b : Ball) (t : ℚ) (ss : List ℕ) (p : ℕ)
    (hinv : BallInv b) (b' : Ball) (h : b.update t ss p = some b') :
    b.next_throw_time ≤ b'.next_throw_time ∧ BallInv b' := by
  rcases hb : b.state with _ | _
  · -- in hand
    rw [Ball.update, hb] at h
    by_cases hc : b.next_throw_time + throw_delay ≤ t
    · rw [if_pos hc] at h
      obtain ⟨-, -, rfl⟩ := (throw_eq_some_iff b b' t ss p).mp h
      constructor
      · simp [thrownBall]
      · intro c hcc
        simp only [thrownBall, Option.some_inj] at hcc
        subst hcc
        have h1 : (0 : ℚ) ≤ (throwValueOf b ss p : ℚ) * T_beat := by
          have : (0 : ℚ) ≤ (throwValueOf b ss p : ℚ) := Nat.cast_nonneg _
          have ht : (0 : ℚ) ≤ T_beat := by norm_num [T_beat]
          exact mul_nonneg this ht
        have h2 : (0 : ℚ) ≤ throw_delay := by norm_num [throw_delay]
        simp only [thrownBall]
        linarith
    · rw [if_neg hc] at h
      injection h with h
      subst h
      exact ⟨le_refl _, fun c hcc => hinv c (by simpa using hcc)⟩
  · -- in the air
    simp only [Ball.update, hb] at h
    rcases hst : b.start_time with _ | st
    · simp only [hst] at h
      exact Option.noConfusion h
    rw [hst] at h
    rcases hft : b.flight_time with _ | ft
    · simp only [hft] at h
      exact Option.noConfusion h
    simp only [hft] at h
    by_cases hlt : t - st < ft
    · rw [if_pos hlt] at h
      rcases hsp : b.start_pos with _ | sp
      · simp only [hsp] at h
        exact Option.noConfusion h
      rw [hsp] at h
      rcases hvx : b.vx with _ | vx
      · simp only [hvx] at h
        exact Option.noConfusion h
      rw [hvx] at h
      rcases hvy : b.vy with _ | vy
      · simp only [hvy] at h
        exact Option.noConfusion h
      simp only [hvy] at h
      injection h with h
      subst h
      exact ⟨le_refl _, fun c hcc => hinv c (by simpa using hcc)⟩
    · rw [if_neg hlt] at h
      rcases hdh : b.dest_hand with _ | dh
      · simp only [hdh] at h
        exact Option.noConfusion h
      rw [hdh] at h
      rcases hct : b.catch_time with _ | ct
      · simp only [hct] at h
        exact Option.noConfusion h
      simp only [hct] at h
      injection h with h
      subst h
      refine ⟨hinv ct hct, fun c hcc => ?_⟩
      simp only [hct, Option.some_inj] at hcc
      subst hcc
      exact le_refl _

/-- A sequence of per-step updates of one ball, stopping at the first
runtime error. -/
def runUpdates (ss : List ℕ) (p : ℕ) : Ball → List ℚ → Option Ball
  | b, [] => some b
  | b, t :: ts =>
    match b.update t ss p with
    | none => none
    | some b' => runUpdates ss p b' ts

theorem runUpdates_mono (ss : List ℕ) (p : ℕ) (ts : List ℚ) (b b' : Ball)
    (hinv : BallInv b) (h : runUpdates ss p b ts = some b') :
    b.next_throw_time ≤ b'.next_throw_time ∧ BallInv b' := by
  induction ts generalizing b with
  | nil =>
    rw [runUpdates] at h
    injection h with h
    subst h
    exact ⟨le_refl _, hinv⟩
  | cons t ts ih =>
    rw [runUpdates] at h
    rcases hu : b.update t ss p with _ | b1 <;> rw [hu] at h
    · exact Option.noConfusion h
    · obtain ⟨h1, hinv1⟩ := update_next_throw_mono b t ss p hinv b1 hu
      obtain ⟨h2, hinv2⟩ := ih b1 hinv1 h
      exact ⟨le_trans h1 h2, hinv2⟩

/-- C9: over a ball's whole lifetime — any sequence of update calls with
arbitrary, even non-monotone, times starting from a freshly created ball —
the scheduled throw time never decreases: its only assignment, at a catch,
sets it to that catch's time, never backward. -/
theorem next_throw_time_monotone (i : ℕ) (t0 : ℚ) (h0 : Hand) (ss : List ℕ)
    (p : ℕ) (ts ts' : List ℚ) (b1 b2 : Ball)
    (h1 : runUpdates ss p (Ball.init i t0 h0) ts = some b1)
    (h2 : runUpdates ss p b1 ts' = some b2) :
    b1.next_throw_time ≤ b2.next_throw_time :=
  (runUpdates_mono ss p ts' b1 b2
    (runUpdates_mono ss p ts (Ball.init i t0 h0) b1 (ballInv_init i t0 h0) h1).2 h2).1

/-- Concrete step: the first ball of pattern 333, updated at time 1,
releases its throw. -/
theorem update1_eval :
    (Ball.init 0 0 .R).update 1 [3, 3, 3] 3
      = some (thrownBall (Ball.init 0 0 .R) 1 [3, 3, 3] 3) := by
  rw [Ball.update]
  norm_num [Ball.init, throw_delay]
  exact (throw_eq_some_iff _ _ _ _ _).mpr
    ⟨by norm_num, by norm_num [throwValueOf, Ball.init, T_beat, pyRound_zero], rfl⟩

/-- Concrete step: the thrown ball, updated at time 3, is caught. -/
theorem update3_eval :
    (thrownBall (Ball.init 0 0 .R) 1 [3, 3, 3] 3).update 3 [3, 3, 3] 3
      = some { thrownBall (Ball.init 0 0 .R) 1 [3, 3, 3] 3 with
          state := BState.in_hand, hand := Hand.L, pos := hand_positions Hand.L,
          next_throw_time := 1 + 3/2 } := by
  rw [Ball.update]
  norm_num [thrownBall, throwValueOf, destHandOf, Ball.init, T_beat, pyRound_zero]
  exact ⟨rfl, rfl⟩

theorem next_throw_time_monotone_w :
    (thrownBall (Ball.init 0 0 .R) 1 [3, 3, 3] 3).next_throw_time
      ≤ ({ thrownBall (Ball.init 0 0 .R) 1 [3, 3, 3] 3 with
          state := BState.in_hand, hand := Hand.L, pos := hand_positions Hand.L,
          next_throw_time := 1 + 3/2 } : Ball).next_throw_time :=
  next_throw_time_monotone 0 0 .R [3, 3, 3] 3 [1] [3]
    (thrownBall (Ball.init 0 0 .R) 1 [3, 3, 3] 3)
    ({ thrownBall (Ball.init 0 0 .R) 1 [3, 3, 3] 3 with
        state := BState.in_hand, hand := Hand.L, pos := hand_positions Hand.L,
        next_throw_time := 1 + 3/2 } : Ball)
    (by simp [runUpdates, update1_eval])
    (by simp [runUpdates, update3_eval])

/-- C10: a single update performs at most one transition.  In the call
where a catch occurs the ball is not thrown again within that call, even
when the new scheduled throw time plus the release delay already lies in
the past at the time of the call: the ball ends the call held, with its
scheduled throw time equal to the recorded catch time and its flight
parameters untouched. -/
theorem catch_no_rethrow (b b'' : Ball) (t' : ℚ) (ss : List ℕ) (p : ℕ)
    (hb : b.state = .in_air) (st ft ct : ℚ)
    (hst : b.start_time = some st) (hft : b.flight_time = some ft)
    (hct : b.catch_time = some ct)
    (hel : ft ≤ t' - st) (hpast : ct + throw_delay ≤ t')
    (h : b.update t' ss p = some b'') :
    b''.state = .in_hand ∧ b''.next_throw_time = ct
    ∧ b''.start_time = some st := by
  simp only [Ball.update, hb, hst, hft] at h
  rw [if_neg (not_lt.mpr hel)] at h
  rcases hdh : b.dest_hand with _ | dh
  · simp only [hdh] at h
    exact Option.noConfusion h
  rw [hdh] at h
  simp only [hct] at h
  injection h with h
  subst h
  exact ⟨rfl, rfl, by simpa using hst⟩

theorem catch_no_rethrow_w :
    ({ thrownBall (Ball.init 0 0 .R) 1 [3, 3, 3] 3 with
        state := BState.in_hand, hand := Hand.L, pos := hand_positions Hand.L,
        next_throw_time := 1 + 3/2 } : Ball).state = BState.in_hand
    ∧ ({ thrownBall (Ball.init 0 0 .R) 1 [3, 3, 3] 3 with
        state := BState.in_hand, hand := Hand.L, pos := hand_positions Hand.L,
        next_throw_time := 1 + 3/2 } : Ball).next_throw_time
        = 1 + (throwValueOf (Ball.init 0 0 .R) [3, 3, 3] 3 : ℚ) * T_beat
    ∧ ({ thrownBall (Ball.init 0 0 .R) 1 [3, 3, 3] 3 with
        state := BState.in_hand, hand := Hand.L, pos := hand_positions Hand.L,
        next_throw_time := 1 + 3/2 } : Ball).start_time = some 1 :=
  catch_no_rethrow (thrownBall (Ball.init 0 0 .R) 1 [3, 3, 3] 3)
    ({ thrownBall (Ball.init 0 0 .R) 1 [3, 3, 3] 3 with
        state := BState.in_hand, hand := Hand.L, pos := hand_positions Hand.L,
        next_throw_time := 1 + 3/2 } : Ball)
    3 [3, 3, 3] 3 rfl
    1 ((throwValueOf (Ball.init 0 0 .R) [3, 3, 3] 3 : ℚ) * T_beat)
    (1 + (throwValueOf (Ball.init 0 0 .R) [3, 3, 3] 3 : ℚ) * T_beat)
    rfl rfl rfl
    (by norm_num [throwValueOf, Ball.init, T_beat, pyRound_zero])
    (by norm_num [throwValueOf, Ball.init, T_beat, throw_delay, pyRound_zero])
    update3_eval

/-! ### Totality of the per-step update (claim C1) -/

/-- Well-formedness of a ball: while in the air, every flight attribute
is set.  Freshly created balls satisfy it vacuously and `update`
preserves it, so it holds in every reachable state. -/
def WF (b : Ball) : Prop :=
  b.state = .in_air →
    (∃ st, b.start_time = some st) ∧ (∃ ft, b.flight_time = some ft)
    ∧ (∃ ct, b.catch_time = some ct) ∧ (∃ sp, b.start_pos = some sp)
    ∧ (∃ v, b.vx = some v) ∧ (∃ v, b.vy = some v)
    ∧ (∃ dh, b.dest_hand = some dh)

theorem wf_init (i : ℕ) (t0 : ℚ) (h0 : Hand) : WF (Ball.init i t0 h0) := by
  intro hair
  exact absurd hair (by simp [Ball.init])

theorem beat_idx_lt (b : Ball) (ss : List ℕ) (p : ℕ)
    (hp : p = ss.length) (hp0 : p ≠ 0) :
    (pyRound (b.next_throw_time / T_beat) % (p : ℤ)).toNat < ss.length := by
  have hpz : (p : ℤ) ≠ 0 := Int.natCast_ne_zero.mpr hp0
  have h1 : 0 ≤ pyRound (b.next_throw_time / T_beat) % (p : ℤ) :=
    Int.emod_nonneg _ hpz
  have h2 : pyRound (b.next_throw_time / T_beat) % (p : ℤ) < (p : ℤ) :=
    Int.emod_lt_of_pos _ (by exact_mod_cast Nat.pos_of_ne_zero hp0)
  omega

/-- C1 counterexample, refuting totality for patterns containing the
digit 0: the second ball created by initialization on the input 40 —
held in the left hand with scheduled throw time `1 * T_beat` — hits, on
its very first released update, a throw whose value is 0, so
`flight_time = 0` and the division computing `vx` has a zero divisor;
the embedding returns `none` exactly where Python raises
`ZeroDivisionError`. -/
theorem update_div_zero_cex :
    initBalls ['4', '0']
      = .ok ([4, 0], 2, [Ball.init 0 (0 * T_beat) .R, Ball.init 1 (1 * T_beat) .L])
    ∧ (Ball.init 1 (1 * T_beat) .L).update 1 [4, 0] 2 = none := by
  constructor
  · have hparse : parseSiteswap ['4', '0'] = [4, 0] := by decide
    rw [initBalls, hparse]
    norm_num [num_balls, List.range_succ]
  · rw [Ball.update]
    norm_num [Ball.init, throw_delay, T_beat]
    rw [Ball.throw]
    norm_num [Ball.init, T_beat, pyRound_one]

/-- C1 amended: for a non-empty pattern all of whose throw values are
positive, the per-step update of any well-formed ball is total — no
division by a zero runtime value (and no other failure) can occur, and
well-formedness is preserved, so totality holds in every reachable
state. -/
theorem update_total_of_pos (b : Ball) (t : ℚ) (ss : List ℕ) (p : ℕ)
    (hWF : WF b) (hp : p = ss.length) (hp0 : p ≠ 0)
    (hpos : ∀ v ∈ ss, 0 < v) :
    ∃ b', b.update t ss p = some b' ∧ WF b' := by
  rcases hb : b.state with _ | _
  · -- held
    by_cases hc : b.next_throw_time + throw_delay ≤ t
    · have hidx := beat_idx_lt b ss p hp hp0
      have htv : throwValueOf b ss p ≠ 0 := by
        rw [throwValueOf_of_lt b ss p hidx]
        have := hpos _ (ss.get_mem _ hidx)
        omega
      refine ⟨thrownBall b t ss p, ?_, ?_⟩
      · rw [Ball.update, hb, if_pos hc]
        exact (throw_eq_some_iff _ _ _ _ _).mpr ⟨hp0, htv, rfl⟩
      · intro hair
        simp [thrownBall]
    · refine ⟨{ b with pos := hand_positions b.hand }, ?_, ?_⟩
      · rw [Ball.update, hb, if_neg hc]
      · intro hair
        exact absurd hair (by simp [hb])
  · -- in the air
    obtain ⟨⟨st, hst⟩, ⟨ft, hft⟩, ⟨ct, hct⟩, ⟨sp, hsp⟩, ⟨vx, hvx⟩, ⟨vy, hvy⟩,
      ⟨dh, hdh⟩⟩ := hWF hb
    by_cases hlt : t - st < ft
    · refine ⟨{ b with
          pos := (sp.1 + vx * (t - st), sp.2 + vy * (t - st) - 1/2 * g * (t - st) ^ 2) },
        ?_, ?_⟩
      · simp only [Ball.update, hb, hst, hft]
        rw [if_pos hlt]
        simp only [hsp, hvx, hvy]
      · intro hair
        exact ⟨⟨st, hst⟩, ⟨ft, hft⟩, ⟨ct, hct⟩, ⟨sp, hsp⟩, ⟨vx, hvx⟩, ⟨vy, hvy⟩,
          ⟨dh, hdh⟩⟩
    · refine ⟨{ b with
          state := .in_hand, hand := dh, pos := hand_positions dh,
          next_throw_time := ct }, ?_, ?_⟩
      · simp only [Ball.update, hb, hst, hft]
        rw [if_neg hlt]
        simp only [hdh, hct]
      · intro hair
        exact absurd hair (by simp)

theorem update_total_of_pos_w :
    ∃ b', (Ball.init 0 0 .R).update 1 [3, 3, 3] 3 = some b' ∧ WF b' :=
  update_total_of_pos (Ball.init 0 0 .R) 1 [3, 3, 3] 3
    (wf_init 0 0 .R) rfl (by decide) (by decide)

end JugglingSim
